import Mathlib

/-!
Verification of the viewpoint/horizon generation pipeline of the
viewfinder repository (`src/routes/timpanogos/api/+server.ts` and
`scripts/generate-timpanogos.ts`).

JavaScript numbers are modelled as exact rationals (`ℚ`): the angle
arithmetic under study (`%`, `+`, `-`, `Math.floor`, `Math.round`) is
exact on the values the pipeline produces.  JavaScript's `%` is the
truncated remainder (sign of the dividend), `Math.floor` is `⌊·⌋`, and
`Math.round` rounds half toward positive infinity, i.e. `⌊x + 1/2⌋`.

The single-flight cache (`cachedGzip` / `generationPromise` in
`+server.ts`) is modelled as a small-step transition system over the
module-level mutable state: the JavaScript event loop runs each call to
`generateAllViewpoints` atomically up to the first `await`, so a `call`
step (the synchronous prefix of the function body, including creation of
the build promise) and a `settle` step (the asynchronous completion of a
build attempt) are the atomic events.
-/

namespace Viewfinder

/-- `Coordinate` record from the source: latitude/longitude in degrees. -/
structure Coordinate where
  latitude : ℚ
  longitude : ℚ
deriving DecidableEq

/-- `RawHorizonPoint` record: a sample from the elevation collaborator,
keyed by absolute compass direction. -/
structure RawHorizonPoint where
  direction : ℚ
  elevationAngleDegrees : ℚ
  distance_km : ℚ
deriving DecidableEq

/-- `HorizonPoint` record: a peak-relative horizon sample. -/
structure HorizonPoint where
  relativeDirection : ℚ
  elevationAngleDegrees : ℚ
  distance_km : ℚ
deriving DecidableEq

/-- `DirectionRange` record: the compass window bounds.  Both bounds are
produced by `Math.floor`, hence integers. -/
structure DirectionRange where
  start : ℤ
  stop : ℤ
deriving DecidableEq

/-- `ElevationData` interface: the opaque elevation collaborator, a pure
function from a coordinate and an inclusive direction range to raw
horizon samples. -/
structure ElevationData where
  calculateHorizon : ℚ → ℚ → ℤ → ℤ → List RawHorizonPoint

/-- `HALF_FOV_DEGREES = 45`. -/
def HALF_FOV_DEGREES : ℚ := 45

/-- `PEAK` constant: Mount Timpanogos. -/
def PEAK : Coordinate := { latitude := 40.3908, longitude := -111.6458 }

/-- `DISTANCE_KM = 8.919`. -/
def DISTANCE_KM : ℚ := 8.919

/-- Truncation toward zero, as JavaScript division underlying `%` uses. -/
def ratTrunc (q : ℚ) : ℤ := if 0 ≤ q then ⌊q⌋ else ⌈q⌉

/-- JavaScript's `%` operator on numbers: the truncated remainder
`x - y * trunc (x / y)` (sign follows the dividend). -/
def jsMod (x y : ℚ) : ℚ := x - y * ratTrunc (x / y)

/-- `normalizeAngle = (angle) => ((angle % 360) + 360) % 360`. -/
def normalizeAngle (angle : ℚ) : ℚ := jsMod (jsMod angle 360 + 360) 360

/-- `normalizeRelativeDirection`: one ±360 correction into `[-180, 180]`. -/
def normalizeRelativeDirection (direction : ℚ) : ℚ :=
  if direction > 180 then direction - 360
  else if direction < -180 then direction + 360
  else direction

/-- JavaScript's `Math.round`: round half toward positive infinity. -/
def jsRound (x : ℚ) : ℚ := ((⌊x + 1/2⌋ : ℤ) : ℚ)

/-- `calculateDirectionRange`: the ±45° field-of-view window around the
bearing back to the peak, floored to integer compass degrees. -/
def calculateDirectionRange (bearingToPeak : ℚ) : DirectionRange :=
  { start := ⌊normalizeAngle (bearingToPeak - HALF_FOV_DEGREES)⌋
    stop := ⌊normalizeAngle (bearingToPeak + HALF_FOV_DEGREES)⌋ }

/-- `transformToRelativeDirection`: re-key one raw sample by its direction
relative to the (rounded) bearing to the peak. -/
def transformToRelativeDirection (point : RawHorizonPoint) (bearingToPeak : ℚ) :
    HorizonPoint :=
  { relativeDirection :=
      normalizeRelativeDirection (point.direction - jsRound bearingToPeak)
    elevationAngleDegrees := point.elevationAngleDegrees
    distance_km := point.distance_km }

/-- The comparator `(a, b) => a.relativeDirection - b.relativeDirection`
passed to `Array.prototype.sort`, as the Boolean order it induces. -/
def horizonLE (p q : HorizonPoint) : Bool :=
  decide (p.relativeDirection ≤ q.relativeDirection)

/-- `calculateHorizonForViewpoint`: query the elevation collaborator over
the field-of-view window (split in two when the window wraps through
north), then map to relative directions and sort ascending. -/
def calculateHorizonForViewpoint (elevation : ElevationData)
    (viewpoint : Coordinate) (bearingToPeak : ℚ) : List HorizonPoint :=
  let range := calculateDirectionRange bearingToPeak
  let rangeWrapsAroundNorth := range.start > range.stop
  let rawPoints :=
    if rangeWrapsAroundNorth then
      elevation.calculateHorizon viewpoint.latitude viewpoint.longitude range.start 359 ++
        elevation.calculateHorizon viewpoint.latitude viewpoint.longitude 0 range.stop
    else
      elevation.calculateHorizon viewpoint.latitude viewpoint.longitude range.start range.stop
  (rawPoints.map (fun point => transformToRelativeDirection point bearingToPeak)).mergeSort
    horizonLE

/-! ### Basic facts about `jsMod` and `normalizeAngle` -/

theorem ratTrunc_nonneg_eq (q : ℚ) (h : 0 ≤ q) : ratTrunc q = ⌊q⌋ := by
  simp [ratTrunc, h]

theorem ratTrunc_neg_eq (q : ℚ) (h : ¬ 0 ≤ q) : ratTrunc q = ⌈q⌉ := by
  simp [ratTrunc, h]

/-- `jsMod x 360` lies in `(-360, 360)`. -/
theorem jsMod_360_bounds (x : ℚ) : -360 < jsMod x 360 ∧ jsMod x 360 < 360 := by
  unfold jsMod
  by_cases h : 0 ≤ x / 360
  · rw [ratTrunc_nonneg_eq _ h]
    have h1 : (⌊x / 360⌋ : ℚ) ≤ x / 360 := Int.floor_le _
    have h2 : x / 360 - 1 < (⌊x / 360⌋ : ℚ) := Int.sub_one_lt_floor _
    constructor <;> nlinarith
  · rw [ratTrunc_neg_eq _ h]
    have h1 : x / 360 ≤ (⌈x / 360⌉ : ℚ) := Int.le_ceil _
    have h2 : (⌈x / 360⌉ : ℚ) < x / 360 + 1 := Int.ceil_lt_add_one _
    constructor <;> nlinarith

/-- `jsMod x 360` differs from `x` by an integer multiple of 360. -/
theorem jsMod_360_sub (x : ℚ) : ∃ k : ℤ, jsMod x 360 = x - 360 * k :=
  ⟨ratTrunc (x / 360), by unfold jsMod; ring⟩

/-- If `0 ≤ x < 360` then `jsMod x 360 = x`. -/
theorem jsMod_360_of_lt (x : ℚ) (h0 : 0 ≤ x) (h1 : x < 360) : jsMod x 360 = x := by
  have hq : 0 ≤ x / 360 := by positivity
  have hfl : ⌊x / 360⌋ = 0 := by
    rw [Int.floor_eq_zero_iff]
    constructor
    · exact hq
    · rw [div_lt_one (by norm_num : (0:ℚ) < 360)]; simpa using h1
  unfold jsMod
  rw [ratTrunc_nonneg_eq _ hq, hfl]
  ring

/-- `normalizeAngle x` lies in `[0, 360)`. -/
theorem normalizeAngle_bounds (x : ℚ) :
    0 ≤ normalizeAngle x ∧ normalizeAngle x < 360 := by
  unfold normalizeAngle
  obtain ⟨hm1, hm2⟩ := jsMod_360_bounds x
  set m : ℚ := jsMod x 360 with hm
  have hq : 0 ≤ (m + 360) / 360 := by nlinarith
  have h1 : (⌊(m + 360) / 360⌋ : ℚ) ≤ (m + 360) / 360 := Int.floor_le _
  have h2 : (m + 360) / 360 - 1 < (⌊(m + 360) / 360⌋ : ℚ) := Int.sub_one_lt_floor _
  unfold jsMod
  rw [ratTrunc_nonneg_eq _ hq]
  constructor <;> nlinarith

/-- `normalizeAngle x` differs from `x` by an integer multiple of 360. -/
theorem normalizeAngle_sub (x : ℚ) : ∃ k : ℤ, normalizeAngle x = x - 360 * k := by
  obtain ⟨k1, h1⟩ := jsMod_360_sub x
  obtain ⟨k2, h2⟩ := jsMod_360_sub (jsMod x 360 + 360)
  refine ⟨k1 + k2 - 1, ?_⟩
  unfold normalizeAngle
  rw [h2, h1]
  push_cast
  ring

/-- The normal form is unique: a value in `[0, 360)` congruent to `x`
modulo 360 is `normalizeAngle x`. -/
theorem normalizeAngle_eq_of_mem (x r : ℚ) (h0 : 0 ≤ r) (h1 : r < 360)
    (k : ℤ) (hk : r = x - 360 * k) : normalizeAngle x = r := by
  obtain ⟨j, hj⟩ := normalizeAngle_sub x
  obtain ⟨hb0, hb1⟩ := normalizeAngle_bounds x
  have hdiff : normalizeAngle x - r = 360 * ((k : ℚ) - j) := by
    rw [hj, hk]; ring
  have hlt : |(360 : ℚ) * ((k : ℚ) - j)| < 360 := by
    rw [← hdiff, abs_lt]; constructor <;> linarith
  have hkj : (k : ℚ) - (j : ℚ) = 0 := by
    by_contra hne
    have : (1 : ℚ) ≤ |(k : ℚ) - j| := by
      have : ((k - j : ℤ) : ℚ) ≠ 0 := by push_cast; exact hne
      have hz : k - j ≠ 0 := by exact_mod_cast this
      calc (1 : ℚ) ≤ |((k - j : ℤ) : ℚ)| := by
                exact_mod_cast Int.one_le_abs hz
        _ = |(k : ℚ) - j| := by push_cast; ring_nf
    rw [abs_mul] at hlt
    have : |(360 : ℚ)| = 360 := by norm_num
    nlinarith [abs_nonneg ((k : ℚ) - j)]
  have : normalizeAngle x - r = 0 := by rw [hdiff, hkj]; ring
  linarith

/-- `normalizeAngle` is idempotent. -/
theorem normalizeAngle_idem (x : ℚ) :
    normalizeAngle (normalizeAngle x) = normalizeAngle x := by
  obtain ⟨h0, h1⟩ := normalizeAngle_bounds x
  exact normalizeAngle_eq_of_mem _ _ h0 h1 0 (by ring)

/-- `normalizeAngle` has period 360. -/
theorem normalizeAngle_period (x : ℚ) :
    normalizeAngle (x + 360) = normalizeAngle x := by
  obtain ⟨h0, h1⟩ := normalizeAngle_bounds x
  obtain ⟨k, hk⟩ := normalizeAngle_sub x
  exact normalizeAngle_eq_of_mem _ _ h0 h1 (k + 1) (by rw [hk]; push_cast; ring)

/-! ### `normalizeRelativeDirection` -/

/-- `normalizeRelativeDirection` applies exactly one ±360 correction. -/
theorem normalizeRelativeDirection_cases (x : ℚ) :
    normalizeRelativeDirection x = x ∨ normalizeRelativeDirection x = x - 360 ∨
      normalizeRelativeDirection x = x + 360 := by
  unfold normalizeRelativeDirection
  split_ifs <;> tauto

theorem normalizeRelativeDirection_mem_of_bounded (x : ℚ)
    (h0 : -540 ≤ x) (h1 : x ≤ 540) :
    -180 ≤ normalizeRelativeDirection x ∧ normalizeRelativeDirection x ≤ 180 := by
  unfold normalizeRelativeDirection
  split_ifs with ha hb <;> constructor <;> linarith

/-- Helper for concrete evaluations of `normalizeAngle`. -/
theorem normalizeAngle_eval (x r : ℚ) (k : ℤ) (h0 : 0 ≤ r) (h1 : r < 360)
    (hk : r = x - 360 * k) : normalizeAngle x = r :=
  normalizeAngle_eq_of_mem x r h0 h1 k hk

theorem normalizeAngle_sub_fov_zero : normalizeAngle (0 - HALF_FOV_DEGREES) = 315 :=
  normalizeAngle_eval _ _ (-1) (by norm_num) (by norm_num)
    (by norm_num [HALF_FOV_DEGREES])

theorem normalizeAngle_add_fov_zero : normalizeAngle (0 + HALF_FOV_DEGREES) = 45 :=
  normalizeAngle_eval _ _ 0 (by norm_num) (by norm_num)
    (by norm_num [HALF_FOV_DEGREES])

theorem normalizeAngle_sub_fov_ninety : normalizeAngle (90 - HALF_FOV_DEGREES) = 45 :=
  normalizeAngle_eval _ _ 0 (by norm_num) (by norm_num)
    (by norm_num [HALF_FOV_DEGREES])

theorem normalizeAngle_add_fov_ninety : normalizeAngle (90 + HALF_FOV_DEGREES) = 135 :=
  normalizeAngle_eval _ _ 0 (by norm_num) (by norm_num)
    (by norm_num [HALF_FOV_DEGREES])

theorem calculateDirectionRange_zero : calculateDirectionRange 0 = ⟨315, 45⟩ := by
  unfold calculateDirectionRange
  rw [normalizeAngle_sub_fov_zero, normalizeAngle_add_fov_zero]
  norm_num

theorem calculateDirectionRange_ninety : calculateDirectionRange 90 = ⟨45, 135⟩ := by
  unfold calculateDirectionRange
  rw [normalizeAngle_sub_fov_ninety, normalizeAngle_add_fov_ninety]
  norm_num

/-! ### The window size -/

/-- Adding 90° to an already-normalized angle re-normalizes by a single
conditional 360° wrap. -/
theorem normalizeAngle_add_ninety (y : ℚ) :
    normalizeAngle (y + 90) =
      if normalizeAngle y < 270 then normalizeAngle y + 90
      else normalizeAngle y - 270 := by
  obtain ⟨h0, h1⟩ := normalizeAngle_bounds y
  obtain ⟨k, hk⟩ := normalizeAngle_sub y
  split_ifs with h
  · exact normalizeAngle_eq_of_mem _ _ (by linarith) (by linarith) k
      (by rw [hk]; ring)
  · exact normalizeAngle_eq_of_mem _ _ (by linarith) (by linarith) (k + 1)
      (by rw [hk]; push_cast; ring)

/-- Both bounds of `calculateDirectionRange` are integer degrees in
`[0, 359]`. -/
theorem floor_normalizeAngle_bounds (x : ℚ) :
    0 ≤ ⌊normalizeAngle x⌋ ∧ ⌊normalizeAngle x⌋ ≤ 359 := by
  obtain ⟨h0, h1⟩ := normalizeAngle_bounds x
  constructor
  · exact Int.floor_nonneg.mpr h0
  · have : ⌊normalizeAngle x⌋ < 360 := Int.floor_lt.mpr (by exact_mod_cast h1)
    omega

/-- The difference of the window bounds: `stop - start` is `90` (no wrap)
or `-270` (wrap through north). -/
theorem calculateDirectionRange_sub (b : ℚ) :
    (calculateDirectionRange b).stop - (calculateDirectionRange b).start = 90 ∨
      (calculateDirectionRange b).stop - (calculateDirectionRange b).start = -270 := by
  have h : b + HALF_FOV_DEGREES = (b - HALF_FOV_DEGREES) + 90 := by
    norm_num [HALF_FOV_DEGREES]; ring
  unfold calculateDirectionRange
  dsimp only
  rw [h, normalizeAngle_add_ninety]
  split_ifs with hc
  · left
    rw [show (90 : ℚ) = ((90 : ℤ) : ℚ) by norm_num, Int.floor_add_int]
    omega
  · right
    rw [show (270 : ℚ) = ((270 : ℤ) : ℚ) by norm_num, Int.floor_sub_int]
    omega

/-! ### The query plan -/

/-- The inclusive integer range `[s, e]` of compass degrees returned by the
elevation collaborator (one sample per degree). -/
def intRange (s e : ℤ) : List ℤ :=
  (List.range (e + 1 - s).toNat).map (fun i : ℕ => s + (i : ℤ))

/-- The list of `(startDirection, endDirection)` queries that
`calculateHorizonForViewpoint` issues to the elevation collaborator, in
order. -/
def horizonQueries (bearingToPeak : ℚ) : List (ℤ × ℤ) :=
  let range := calculateDirectionRange bearingToPeak
  if range.start > range.stop then [(range.start, 359), (0, range.stop)]
  else [(range.start, range.stop)]

/-- The integer compass degrees covered by the issued queries. -/
def queriedDegrees (bearingToPeak : ℚ) : List ℤ :=
  (horizonQueries bearingToPeak).flatMap (fun q => intRange q.1 q.2)

theorem intRange_length (s e : ℤ) :
    (intRange s e).length = (e + 1 - s).toNat := by
  simp [intRange]

theorem intRange_nodup (s e : ℤ) : (intRange s e).Nodup := by
  refine List.Nodup.map ?_ (List.nodup_range _)
  intro i j hij
  dsimp only at hij
  omega

theorem mem_intRange (s e d : ℤ) (h : d ∈ intRange s e) : s ≤ d ∧ d ≤ e := by
  simp only [intRange, List.mem_map, List.mem_range] at h
  obtain ⟨i, hi, rfl⟩ := h
  omega

/-! ### Claim theorems: normalization and the direction-range planner -/

/-- C5: for every bearing `b`, `calculateDirectionRange b` returns
`start = ⌊normalizeAngle (b - 45)⌋` and `end = ⌊normalizeAngle (b + 45)⌋`;
in particular `calculateDirectionRange 0 = {start := 315, end := 45}`
(start > end, wrap flagged) and
`calculateDirectionRange 90 = {start := 45, end := 135}` (no wrap). -/
theorem directionRange_planner_spec :
    (∀ b : ℚ, calculateDirectionRange b =
        { start := ⌊normalizeAngle (b - 45)⌋, stop := ⌊normalizeAngle (b + 45)⌋ }) ∧
    calculateDirectionRange 0 = ⟨315, 45⟩ ∧
    (calculateDirectionRange 0).start > (calculateDirectionRange 0).stop ∧
    calculateDirectionRange 90 = ⟨45, 135⟩ ∧
    ¬ (calculateDirectionRange 90).start > (calculateDirectionRange 90).stop := by
  refine ⟨fun b => rfl, calculateDirectionRange_zero, ?_,
    calculateDirectionRange_ninety, ?_⟩
  · rw [calculateDirectionRange_zero]; decide
  · rw [calculateDirectionRange_ninety]; decide

/-- C7 counterexample: `normalizeRelativeDirection` applies a single ±360
correction, so at input 541 it returns 181, outside `[-180, 180]`. -/
theorem normalizeRelativeDirection_unbounded :
    ¬ (-180 ≤ normalizeRelativeDirection 541 ∧
        normalizeRelativeDirection 541 ≤ 180) := by
  norm_num [normalizeRelativeDirection]

/-- C7 (amended): for every input `x`, `normalizeAngle x` lies in
`[0, 360)` (true modulo, correct on negative inputs); and for inputs in
`[-540, 540]` — which covers every difference the pipeline feeds it —
`normalizeRelativeDirection x` lies in `[-180, 180]`. -/
theorem normalization_ranges :
    ∀ x : ℚ, (0 ≤ normalizeAngle x ∧ normalizeAngle x < 360) ∧
      (-540 ≤ x → x ≤ 540 →
        -180 ≤ normalizeRelativeDirection x ∧ normalizeRelativeDirection x ≤ 180) :=
  fun x => ⟨normalizeAngle_bounds x,
    fun h0 h1 => normalizeRelativeDirection_mem_of_bounded x h0 h1⟩

/-- C7 witness: the amended theorem at concrete inputs. -/
theorem normalization_ranges_witness :
    (0 ≤ normalizeAngle (-541) ∧ normalizeAngle (-541) < 360) ∧
      (-180 ≤ normalizeRelativeDirection (-300) ∧
        normalizeRelativeDirection (-300) ≤ 180) :=
  ⟨(normalization_ranges (-541)).1,
   (normalization_ranges (-300)).2 (by norm_num) (by norm_num)⟩

/-- C8: `normalizeRelativeDirection ∘ normalizeAngle` always lands in
`[-180, 180]`; `normalizeAngle` is idempotent and has period 360. -/
theorem normalization_algebra :
    ∀ x : ℚ,
      (-180 ≤ normalizeRelativeDirection (normalizeAngle x) ∧
        normalizeRelativeDirection (normalizeAngle x) ≤ 180) ∧
      normalizeAngle (normalizeAngle x) = normalizeAngle x ∧
      normalizeAngle (x + 360) = normalizeAngle x := by
  intro x
  obtain ⟨h0, h1⟩ := normalizeAngle_bounds x
  exact ⟨normalizeRelativeDirection_mem_of_bounded _ (by linarith) (by linarith),
    normalizeAngle_idem x, normalizeAngle_period x⟩

/-- C10: the field-of-view window always covers exactly 91 integer compass
degrees: `(end - start) % 360 = 90`, giving `end - start + 1 = 91` without
wrap and `(360 - start) + (end + 1) = 91` with wrap; accordingly the
degrees queried on behalf of a viewpoint are 91 distinct values. -/
theorem window_size_invariant :
    ∀ b : ℚ,
      ((calculateDirectionRange b).stop - (calculateDirectionRange b).start) % 360 = 90 ∧
      ((calculateDirectionRange b).start ≤ (calculateDirectionRange b).stop →
        (calculateDirectionRange b).stop - (calculateDirectionRange b).start + 1 = 91) ∧
      ((calculateDirectionRange b).start > (calculateDirectionRange b).stop →
        (360 - (calculateDirectionRange b).start) +
          ((calculateDirectionRange b).stop + 1) = 91) ∧
      (queriedDegrees b).Nodup ∧ (queriedDegrees b).length = 91 := by
  intro b
  obtain ⟨hs0, hs1⟩ := floor_normalizeAngle_bounds (b - HALF_FOV_DEGREES)
  obtain ⟨he0, he1⟩ := floor_normalizeAngle_bounds (b + HALF_FOV_DEGREES)
  have hs0' : 0 ≤ (calculateDirectionRange b).start := hs0
  have hs1' : (calculateDirectionRange b).start ≤ 359 := hs1
  have he0' : 0 ≤ (calculateDirectionRange b).stop := he0
  have he1' : (calculateDirectionRange b).stop ≤ 359 := he1
  have hd := calculateDirectionRange_sub b
  refine ⟨?_, fun _ => ?_, fun hw => ?_, ?_, ?_⟩
  · rcases hd with h | h <;> rw [h] <;> decide
  · rcases hd with h | h
    · omega
    · omega
  · rcases hd with h | h
    · omega
    · omega
  · unfold queriedDegrees horizonQueries
    dsimp only
    split_ifs with hw
    · simp only [List.flatMap_cons, List.flatMap_nil, List.append_nil]
      refine List.Nodup.append (intRange_nodup _ _) (intRange_nodup _ _) ?_
      intro d hd1 hd2
      have h1 := mem_intRange _ _ _ hd1
      have h2 := mem_intRange _ _ _ hd2
      omega
    · simp only [List.flatMap_cons, List.flatMap_nil, List.append_nil]
      exact intRange_nodup _ _
  · unfold queriedDegrees horizonQueries
    dsimp only
    split_ifs with hw
    · simp only [List.flatMap_cons, List.flatMap_nil, List.append_nil,
        List.length_append, intRange_length]
      rcases hd with h | h
      · omega
      · omega
    · simp only [List.flatMap_cons, List.flatMap_nil, List.append_nil,
        intRange_length]
      rcases hd with h | h
      · omega
      · omega

/-- C10 witness: the window-size equations at a non-wrapping bearing (90°)
and a wrapping bearing (0°). -/
theorem window_size_invariant_witness :
    (calculateDirectionRange 90).stop - (calculateDirectionRange 90).start + 1 = 91 ∧
    (360 - (calculateDirectionRange 0).start) +
      ((calculateDirectionRange 0).stop + 1) = 91 :=
  ⟨(window_size_invariant 90).2.1 (by rw [calculateDirectionRange_ninety]; decide),
   (window_size_invariant 0).2.2.1 (by rw [calculateDirectionRange_zero]; decide)⟩

/-! ### The sort comparator -/

theorem horizonLE_trans (a b c : HorizonPoint)
    (hab : horizonLE a b) (hbc : horizonLE b c) : horizonLE a c := by
  simp only [horizonLE, decide_eq_true_eq] at *
  exact le_trans hab hbc

theorem horizonLE_total (a b : HorizonPoint) : horizonLE a b || horizonLE b a := by
  simp only [horizonLE, Bool.or_eq_true, decide_eq_true_eq]
  exact le_total _ _

theorem mergeSort_horizon_pairwise (l : List HorizonPoint) :
    List.Pairwise (fun p q : HorizonPoint =>
      p.relativeDirection ≤ q.relativeDirection) (l.mergeSort horizonLE) := by
  have hs := @List.sorted_mergeSort HorizonPoint horizonLE
    (fun a b c => horizonLE_trans a b c) (fun a b => horizonLE_total a b) l
  exact hs.imp (fun h => by simpa [horizonLE] using h)

/-- C4: the horizon transformer maps each raw sample to
`relativeDirection = normalizeRelativeDirection (direction - round bearing)`
(the bearing rounded to the nearest integer degree first), preserving
elevation angle and distance, and the sorted output is a permutation of
the transformed samples ordered ascending by `relativeDirection`. -/
theorem horizon_transformer_spec :
    ∀ (raw : List RawHorizonPoint) (b : ℚ),
      (∀ q ∈ raw, transformToRelativeDirection q b =
        { relativeDirection := normalizeRelativeDirection (q.direction - jsRound b)
          elevationAngleDegrees := q.elevationAngleDegrees
          distance_km := q.distance_km }) ∧
      ((raw.map (fun p => transformToRelativeDirection p b)).mergeSort horizonLE).Perm
        (raw.map (fun p => transformToRelativeDirection p b)) ∧
      List.Pairwise (fun p q : HorizonPoint =>
          p.relativeDirection ≤ q.relativeDirection)
        ((raw.map (fun p => transformToRelativeDirection p b)).mergeSort horizonLE) := by
  intro raw b
  exact ⟨fun q _ => rfl, List.mergeSort_perm _ _, mergeSort_horizon_pairwise _⟩

/-- C4 witness: the transformer at one concrete sample and bearing. -/
theorem horizon_transformer_spec_witness :
    transformToRelativeDirection ⟨300, 1, 2⟩ 350.2 =
      { relativeDirection := normalizeRelativeDirection ((300 : ℚ) - jsRound 350.2)
        elevationAngleDegrees := 1
        distance_km := 2 } :=
  (horizon_transformer_spec [⟨300, 1, 2⟩] 350.2).1 _ (by simp)

/-- C3: when the window does not wrap, exactly one elevation query
`[start, end]` is issued; when it wraps (`start > end`), exactly the two
queries `[start, 359]` and `[0, end]` are issued, their results
concatenated in that order, and no single `[start, end]` query occurs. -/
theorem wraparound_split_spec :
    ∀ b : ℚ,
      ((calculateDirectionRange b).start ≤ (calculateDirectionRange b).stop →
        horizonQueries b =
          [((calculateDirectionRange b).start, (calculateDirectionRange b).stop)]) ∧
      ((calculateDirectionRange b).start > (calculateDirectionRange b).stop →
        horizonQueries b =
          [((calculateDirectionRange b).start, 359), (0, (calculateDirectionRange b).stop)] ∧
        ((calculateDirectionRange b).start, (calculateDirectionRange b).stop) ∉
          horizonQueries b) ∧
      ∀ (elevation : ElevationData) (viewpoint : Coordinate),
        calculateHorizonForViewpoint elevation viewpoint b =
          (((horizonQueries b).flatMap (fun q =>
              elevation.calculateHorizon viewpoint.latitude viewpoint.longitude
                q.1 q.2)).map
            (fun point => transformToRelativeDirection point b)).mergeSort horizonLE := by
  intro b
  obtain ⟨hs0, hs1⟩ := floor_normalizeAngle_bounds (b - HALF_FOV_DEGREES)
  obtain ⟨he0, he1⟩ := floor_normalizeAngle_bounds (b + HALF_FOV_DEGREES)
  have hs1' : (calculateDirectionRange b).start ≤ 359 := hs1
  have he0' : (0 : ℤ) ≤ (calculateDirectionRange b).stop := he0
  refine ⟨fun h => ?_, fun h => ⟨?_, ?_⟩, fun elevation viewpoint => ?_⟩
  · unfold horizonQueries
    dsimp only
    rw [if_neg (not_lt.mpr h)]
  · unfold horizonQueries
    dsimp only
    rw [if_pos h]
  · unfold horizonQueries
    dsimp only
    rw [if_pos h]
    intro hmem
    simp only [List.mem_cons, List.not_mem_nil, or_false, Prod.mk.injEq] at hmem
    rcases hmem with ⟨_, h359⟩ | ⟨h0, _⟩
    · exact absurd h359 (by change (calculateDirectionRange b).stop ≠ 359; omega)
    · exact absurd h0 (by change (calculateDirectionRange b).start ≠ 0; omega)
  · unfold calculateHorizonForViewpoint horizonQueries
    dsimp only
    split_ifs with hw
    · simp [List.flatMap_cons, List.flatMap_nil]
    · simp [List.flatMap_cons, List.flatMap_nil]

/-- C3 witness: the wrap-flagged query plan at bearing 0. -/
theorem wraparound_split_spec_witness :
    horizonQueries 0 =
      [((calculateDirectionRange 0).start, 359), (0, (calculateDirectionRange 0).stop)] :=
  ((wraparound_split_spec 0).2.1 (by rw [calculateDirectionRange_zero]; decide)).1

/-! ### Strict sortedness of the horizon (claim C6) -/

/-- `normalizeRelativeDirection` is injective on any window narrower than
360°. -/
theorem nrd_inj_small (x y : ℚ) (h : |x - y| < 360)
    (he : normalizeRelativeDirection x = normalizeRelativeDirection y) : x = y := by
  rw [abs_lt] at h
  obtain ⟨h1, h2⟩ := h
  rcases normalizeRelativeDirection_cases x with hx | hx | hx <;>
    rcases normalizeRelativeDirection_cases y with hy | hy | hy <;>
    rw [hx, hy] at he <;> linarith

/-- Casting a list of integers into ℚ preserves `Nodup`. -/
theorem castList_nodup (l : List ℤ) (h : l.Nodup) :
    (l.map (fun n : ℤ => (n : ℚ))).Nodup :=
  h.map (fun a b hab => by exact_mod_cast hab)

/-- If the raw samples carry pairwise-distinct integer directions inside
`[0, 359]`, the transformed and sorted horizon is strictly ascending in
`relativeDirection`. -/
theorem horizon_pairwise_lt_of_raw (raw : List RawHorizonPoint) (b : ℚ)
    (hmem : ∀ p ∈ raw, ∃ n : ℤ, 0 ≤ n ∧ n ≤ 359 ∧ p.direction = (n : ℚ))
    (hnd : (raw.map RawHorizonPoint.direction).Nodup) :
    List.Pairwise (fun p q : HorizonPoint =>
      p.relativeDirection < q.relativeDirection)
      ((raw.map (fun p => transformToRelativeDirection p b)).mergeSort horizonLE) := by
  have hperm :
      ((raw.map (fun p => transformToRelativeDirection p b)).mergeSort horizonLE).Perm
        (raw.map (fun p => transformToRelativeDirection p b)) :=
    List.mergeSort_perm _ _
  have hle := mergeSort_horizon_pairwise
    (raw.map (fun p => transformToRelativeDirection p b))
  have hkeys :
      ((raw.map (fun p => transformToRelativeDirection p b)).map
        (fun p : HorizonPoint => p.relativeDirection)).Nodup := by
    rw [List.map_map]
    have hc : ((fun p : HorizonPoint => p.relativeDirection) ∘
        (fun p => transformToRelativeDirection p b)) =
        ((fun d : ℚ => normalizeRelativeDirection (d - jsRound b)) ∘
          RawHorizonPoint.direction) := rfl
    rw [hc, ← List.map_map]
    refine List.Nodup.map_on ?_ hnd
    intro x hx y hy hxy
    obtain ⟨p, hp, rfl⟩ := List.mem_map.mp hx
    obtain ⟨q, hq, rfl⟩ := List.mem_map.mp hy
    obtain ⟨m, hm0, hm1, hmd⟩ := hmem p hp
    obtain ⟨n, hn0, hn1, hnq⟩ := hmem q hq
    have habs : |(p.direction - jsRound b) - (q.direction - jsRound b)| < 360 := by
      have hm0' : (0 : ℚ) ≤ (m : ℚ) := by exact_mod_cast hm0
      have hm1' : ((m : ℚ)) ≤ 359 := by exact_mod_cast hm1
      have hn0' : (0 : ℚ) ≤ (n : ℚ) := by exact_mod_cast hn0
      have hn1' : ((n : ℚ)) ≤ 359 := by exact_mod_cast hn1
      rw [hmd, hnq, abs_lt]
      constructor <;> linarith
    have := nrd_inj_small _ _ habs hxy
    linarith
  have hkeys_out :
      (((raw.map (fun p => transformToRelativeDirection p b)).mergeSort
          horizonLE).map (fun p : HorizonPoint => p.relativeDirection)).Nodup :=
    ((hperm.map _).nodup_iff).mpr hkeys
  have hne : List.Pairwise (fun p q : HorizonPoint =>
      p.relativeDirection ≠ q.relativeDirection)
      ((raw.map (fun p => transformToRelativeDirection p b)).mergeSort horizonLE) :=
    List.pairwise_map.mp hkeys_out
  exact (hle.and hne).imp (fun h => lt_of_le_of_ne h.1 h.2)

/-- The elevation collaborator's documented contract: one raw sample per
integer compass degree of the queried inclusive range, in order. -/
def OneSamplePerDegree (elevation : ElevationData) : Prop :=
  ∀ (lat lon : ℚ) (s e : ℤ),
    (elevation.calculateHorizon lat lon s e).map RawHorizonPoint.direction =
      (intRange s e).map (fun n : ℤ => (n : ℚ))

/-- C6: assuming the elevation collaborator returns exactly one sample per
integer compass degree of each queried inclusive range, every horizon the
pipeline produces is sorted strictly ascending by `relativeDirection`
(ascending, with no duplicate direction values). -/
theorem horizon_invariant_strict :
    ∀ (elevation : ElevationData) (viewpoint : Coordinate) (b : ℚ),
      OneSamplePerDegree elevation →
      List.Pairwise (fun p q : HorizonPoint =>
        p.relativeDirection < q.relativeDirection)
        (calculateHorizonForViewpoint elevation viewpoint b) := by
  intro elevation viewpoint b hone
  obtain ⟨hs0, hs1⟩ := floor_normalizeAngle_bounds (b - HALF_FOV_DEGREES)
  obtain ⟨he0, he1⟩ := floor_normalizeAngle_bounds (b + HALF_FOV_DEGREES)
  have hs0' : (0 : ℤ) ≤ (calculateDirectionRange b).start := hs0
  have hs1' : (calculateDirectionRange b).start ≤ 359 := hs1
  have he0' : (0 : ℤ) ≤ (calculateDirectionRange b).stop := he0
  have he1' : (calculateDirectionRange b).stop ≤ 359 := he1
  unfold calculateHorizonForViewpoint
  dsimp only
  split_ifs with hw
  · refine horizon_pairwise_lt_of_raw _ b ?_ ?_
    · intro p hp
      rcases List.mem_append.mp hp with hpa | hpb
      · have : p.direction ∈ (intRange (calculateDirectionRange b).start 359).map
            (fun n : ℤ => (n : ℚ)) := by
          rw [← hone]
          exact List.mem_map_of_mem _ hpa
        obtain ⟨n, hn, hnd⟩ := List.mem_map.mp this
        obtain ⟨hn1, hn2⟩ := mem_intRange _ _ _ hn
        exact ⟨n, by omega, by omega, hnd.symm⟩
      · have : p.direction ∈ (intRange 0 (calculateDirectionRange b).stop).map
            (fun n : ℤ => (n : ℚ)) := by
          rw [← hone]
          exact List.mem_map_of_mem _ hpb
        obtain ⟨n, hn, hnd⟩ := List.mem_map.mp this
        obtain ⟨hn1, hn2⟩ := mem_intRange _ _ _ hn
        exact ⟨n, by omega, by omega, hnd.symm⟩
    · rw [List.map_append, hone, hone]
      refine List.Nodup.append (castList_nodup _ (intRange_nodup _ _))
        (castList_nodup _ (intRange_nodup _ _)) ?_
      intro d hd1 hd2
      obtain ⟨m, hm, hmd⟩ := List.mem_map.mp hd1
      obtain ⟨n, hn, hnd'⟩ := List.mem_map.mp hd2
      obtain ⟨hm1, hm2⟩ := mem_intRange _ _ _ hm
      obtain ⟨hn1, hn2⟩ := mem_intRange _ _ _ hn
      have : m = n := by
        have : ((m : ℚ)) = ((n : ℚ)) := by rw [hmd, hnd']
        exact_mod_cast this
      omega
  · refine horizon_pairwise_lt_of_raw _ b ?_ ?_
    · intro p hp
      have : p.direction ∈ (intRange (calculateDirectionRange b).start
          (calculateDirectionRange b).stop).map (fun n : ℤ => (n : ℚ)) := by
        rw [← hone]
        exact List.mem_map_of_mem _ hp
      obtain ⟨n, hn, hnd⟩ := List.mem_map.mp this
      obtain ⟨hn1, hn2⟩ := mem_intRange _ _ _ hn
      exact ⟨n, by omega, by omega, hnd.symm⟩
    · rw [hone]
      exact castList_nodup _ (intRange_nodup _ _)

/-- A concrete elevation handle satisfying the contract: flat terrain,
one sample per degree. -/
def flatElevation : ElevationData :=
  ⟨fun _ _ s e => (intRange s e).map (fun n : ℤ => ⟨(n : ℚ), 0, 0⟩)⟩

theorem flatElevation_oneSample : OneSamplePerDegree flatElevation := by
  intro lat lon s e
  unfold flatElevation
  dsimp only
  rw [List.map_map]
  rfl

/-- C6 witness: a concrete viewpoint's horizon under the flat-terrain
elevation handle is strictly ascending. -/
theorem horizon_invariant_strict_witness :
    List.Pairwise (fun p q : HorizonPoint =>
      p.relativeDirection < q.relativeDirection)
      (calculateHorizonForViewpoint flatElevation ⟨0, 0⟩ 0) :=
  horizon_invariant_strict flatElevation ⟨0, 0⟩ 0 flatElevation_oneSample

/-! ### The viewpoint generator (claim C9)

`calculateDestinationPoint` and `calculateBearing` are spherical-geometry
primitives computed with floating-point transcendental functions
(`Math.sin`, `Math.cos`, `Math.asin`, `Math.atan2`); their numeric values
are not exactly representable here, so they enter the embedding as pure
function parameters.  `generateViewpoint` below mirrors the source body
exactly: place the viewpoint, compute the bearing back to the peak,
compute the horizon, assemble the record. -/

structure Viewpoint where
  angle : ℚ
  viewpoint : Coordinate
  bearingToPeak : ℚ
  horizon : List HorizonPoint
deriving DecidableEq

/-- `generateViewpoint` from the source, with the two trigonometric
geodesy primitives passed as (pure) function arguments. -/
def generateViewpoint
    (calculateDestinationPoint : Coordinate → ℚ → ℚ → Coordinate)
    (calculateBearing : Coordinate → Coordinate → ℚ)
    (elevation : ElevationData) (angle : ℚ) : Viewpoint :=
  let viewpoint := calculateDestinationPoint PEAK DISTANCE_KM angle
  let bearingToPeak := calculateBearing viewpoint PEAK
  let horizon := calculateHorizonForViewpoint elevation viewpoint bearingToPeak
  { angle := angle, viewpoint := viewpoint, bearingToPeak := bearingToPeak,
    horizon := horizon }

/-- C9: `generateViewpoint` is deterministic — for any angle in `[0, 360)`
and any fixed pure elevation handle (and fixed pure geodesy primitives),
any two results of calling it at that angle agree in location,
bearing-to-peak and horizon, hence are identical `Viewpoint` values. -/
theorem generateViewpoint_deterministic :
    ∀ (dest : Coordinate → ℚ → ℚ → Coordinate)
      (bearing : Coordinate → Coordinate → ℚ)
      (elevation : ElevationData) (a : ℚ), 0 ≤ a → a < 360 →
      ∀ v₁ v₂ : Viewpoint,
        v₁ = generateViewpoint dest bearing elevation a →
        v₂ = generateViewpoint dest bearing elevation a →
        v₁.viewpoint = v₂.viewpoint ∧ v₁.bearingToPeak = v₂.bearingToPeak ∧
          v₁.horizon = v₂.horizon ∧ v₁ = v₂ := by
  intro dest bearing elevation a _ _ v₁ v₂ h₁ h₂
  subst h₁ h₂
  exact ⟨rfl, rfl, rfl, rfl⟩

/-- C9 witness: two calls at angle 0 with concrete pure collaborators. -/
theorem generateViewpoint_deterministic_witness :
    (generateViewpoint (fun c _ _ => c) (fun _ _ => 0) flatElevation 0).horizon =
      (generateViewpoint (fun c _ _ => c) (fun _ _ => 0) flatElevation 0).horizon :=
  (generateViewpoint_deterministic (fun c _ _ => c) (fun _ _ => 0) flatElevation 0
    (by norm_num) (by norm_num) _ _ rfl rfl).2.2.1

/-! ### The single-flight cache (claims C1, C2)

Model of the module-level mutable state of `+server.ts`:

  let cachedGzip: Buffer | null = null;
  let generationPromise: Promise<Buffer> | null = null;

`generateAllViewpoints` runs synchronously (single-threaded event loop)
from entry up to returning a promise: the checks of `cachedGzip` and
`generationPromise` and the assignment of a fresh build promise form one
atomic step (`CacheEvent.call`).  The build promise suspends at
`await loadElevationData(...)`; its eventual completion (success sets
`cachedGzip`; rejection leaves the module state untouched — the source
has no rejection handler) is the other atomic step (`CacheEvent.settle`).
Promises are identified by index into `attempts`; `loadsStarted` counts
executions of the build body (each begins with one elevation-data load),
and `buildsCompleted` counts dataset builds that ran to completion. -/

/-- What the cache handed a given caller: the cached artifact directly
(`resolved`), or attachment to the promise of build attempt `i`
(`joined`). -/
inductive CallerOutcome (E A : Type) where
  | resolved : A → CallerOutcome E A
  | joined : ℕ → CallerOutcome E A

/-- The module-level state of `+server.ts`, plus instrumentation
(`attempts`, `loadsStarted`, `buildsCompleted`, `callers`) recording the
history of build attempts and callers. -/
structure CacheState (E A : Type) where
  cachedGzip : Option A
  generationPromise : Option ℕ
  attempts : List (Option (Except E A))
  loadsStarted : ℕ
  buildsCompleted : ℕ
  callers : List (CallerOutcome E A)

/-- Process start: both module variables `null`, nothing has run. -/
def initialCacheState (E A : Type) : CacheState E A :=
  { cachedGzip := none, generationPromise := none, attempts := [],
    loadsStarted := 0, buildsCompleted := 0, callers := [] }

/-- The atomic events: a caller invokes `generateAllViewpoints`, or an
in-flight build attempt `i` settles with result `r`. -/
inductive CacheEvent (E A : Type) where
  | call
  | settle (i : ℕ) (r : Except E A)

/-- One atomic step of `generateAllViewpoints` / build-promise
completion, mirroring the source line by line. -/
def cacheStep (s : CacheState E A) : CacheEvent E A → CacheState E A
  | .call =>
    match s.cachedGzip with
    | some a => { s with callers := s.callers ++ [.resolved a] }
    | none =>
      match s.generationPromise with
      | some i => { s with callers := s.callers ++ [.joined i] }
      | none =>
        { s with generationPromise := some s.attempts.length,
                 attempts := s.attempts ++ [none],
                 loadsStarted := s.loadsStarted + 1,
                 callers := s.callers ++ [.joined s.attempts.length] }
  | .settle i r =>
    match s.attempts[i]? with
    | some none =>
      match r with
      | .ok a => { s with attempts := s.attempts.set i (some r),
                          cachedGzip := some a,
                          buildsCompleted := s.buildsCompleted + 1 }
      | .error _ => { s with attempts := s.attempts.set i (some r) }
    | _ => s

/-- Run a whole trace of events from a state. -/
def cacheRun (s : CacheState E A) (events : List (CacheEvent E A)) : CacheState E A :=
  events.foldl cacheStep s

/-- The result caller `c` observes, once available: `some (ok a)` /
`some (error e)` when its promise has settled (or it was handed the cached
artifact), `none` while still waiting. -/
def callerResult (s : CacheState E A) (c : ℕ) : Option (Except E A) :=
  match s.callers[c]? with
  | none => none
  | some (.resolved a) => some (.ok a)
  | some (.joined i) => (s.attempts[i]?).getD none

/-- Invariant of the cache state, preserved by every event.  Because the
source never clears `generationPromise`, at most one build attempt is ever
created (`attempts.length ≤ 1`, and it is attempt 0). -/
def CacheInv (s : CacheState E A) : Prop :=
  s.loadsStarted = s.attempts.length ∧
  s.attempts.length ≤ 1 ∧
  (s.generationPromise = none → s.attempts = []) ∧
  (∀ i, s.generationPromise = some i → i = 0) ∧
  s.buildsCompleted = (match s.attempts[0]? with
    | some (some (.ok _)) => 1
    | _ => 0) ∧
  (∀ a, s.cachedGzip = some a ↔ s.attempts[0]? = some (some (.ok a))) ∧
  (∀ o ∈ s.callers, o = .joined 0 ∨ ∃ a, o = .resolved a ∧ s.cachedGzip = some a)

theorem cacheInv_initial : CacheInv (initialCacheState E A) := by
  refine ⟨rfl, by simp [initialCacheState], fun _ => rfl,
    fun i h => by simp [initialCacheState] at h, rfl,
    fun a => by simp [initialCacheState], fun o ho => by
      simp [initialCacheState] at ho⟩

theorem cacheInv_step (s : CacheState E A) (e : CacheEvent E A)
    (h : CacheInv s) : CacheInv (cacheStep s e) := by
  obtain ⟨cg, gp, att, ls, bc, cs⟩ := s
  obtain ⟨hload, hlen, hnone, hsome, hbuild, hcache, hcallers⟩ := h
  dsimp only at hload hlen hnone hsome hbuild hcache hcallers
  cases e with
  | call =>
    cases cg with
    | some a =>
      refine ⟨hload, hlen, hnone, hsome, hbuild, hcache, ?_⟩
      intro o ho
      rcases List.mem_append.mp ho with hold | hnew
      · exact hcallers o hold
      · rcases List.mem_singleton.mp hnew with rfl
        exact Or.inr ⟨a, rfl, rfl⟩
    | none =>
      cases gp with
      | some i =>
        refine ⟨hload, hlen, ?_, hsome, hbuild, hcache, ?_⟩
        · intro hcon
          exact absurd hcon (Option.some_ne_none i)
        · intro o ho
          rcases List.mem_append.mp ho with hold | hnew
          · exact hcallers o hold
          · rcases List.mem_singleton.mp hnew with rfl
            exact Or.inl (by rw [hsome i rfl])
      | none =>
        have hA : att = [] := hnone rfl
        subst hA
        have hl0 : ls = 0 := by simpa using hload
        subst hl0
        refine ⟨?_, ?_, ?_, ?_, ?_, ?_, ?_⟩
        · simp [cacheStep]
        · simp [cacheStep]
        · intro hcon
          dsimp only [cacheStep] at hcon
          exact absurd hcon (Option.some_ne_none _)
        · intro i hi
          dsimp only [cacheStep] at hi
          simp only [List.length_nil, Option.some.injEq] at hi
          omega
        · dsimp only [cacheStep]
          simpa using hbuild
        · intro a'
          dsimp only [cacheStep]
          simp
        · intro o ho
          dsimp only [cacheStep] at ho ⊢
          rcases List.mem_append.mp ho with hold | hnew
          · rcases hcallers o hold with h1 | ⟨b, _, h3⟩
            · exact Or.inl h1
            · exact absurd h3 (by simp)
          · rcases List.mem_singleton.mp hnew with rfl
            exact Or.inl rfl
  | settle i r =>
    revert hbuild hcache
    unfold cacheStep
    dsimp only
    cases hai : att[i]? with
    | none =>
      intro hbuild hcache
      exact ⟨hload, hlen, hnone, hsome, hbuild, hcache, hcallers⟩
    | some v =>
      cases v with
      | some x =>
        intro hbuild hcache
        exact ⟨hload, hlen, hnone, hsome, hbuild, hcache, hcallers⟩
      | none =>
        intro hbuild hcache
        have hilt : i < att.length := (List.getElem?_eq_some_iff.mp hai).1
        have hi0 : i = 0 := by omega
        subst hi0
        have hlen1 : att.length = 1 := by omega
        obtain ⟨a0, hA⟩ := List.length_eq_one.mp hlen1
        subst hA
        have ha0 : a0 = none := by simpa using hai
        subst ha0
        have hbc0 : bc = 0 := by simpa using hbuild
        subst hbc0
        have hcg : cg = none := by
          cases hg : cg with
          | none => rfl
          | some b =>
            have := (hcache b).mp hg
            simp at this
        subst hcg
        have hcallers0 : ∀ o ∈ cs, o = CallerOutcome.joined 0 := by
          intro o ho
          rcases hcallers o ho with h1 | ⟨b, _, h3⟩
          · exact h1
          · exact absurd h3 (by simp)
        have hpnone : gp ≠ none := by
          intro hcon
          have := hnone hcon
          simp at this
        cases r with
        | ok a =>
          refine ⟨?_, ?_, ?_, hsome, ?_, ?_, ?_⟩
          · simpa using hload
          · simp
          · intro hcon
            exact absurd hcon hpnone
          · rfl
          · intro a'
            simp
          · intro o ho
            exact Or.inl (hcallers0 o ho)
        | error err =>
          refine ⟨?_, ?_, ?_, hsome, ?_, ?_, ?_⟩
          · simpa using hload
          · simp
          · intro hcon
            exact absurd hcon hpnone
          · rfl
          · intro a'
            simp
          · intro o ho
            rcases hcallers0 o ho with rfl
            exact Or.inl rfl

theorem cacheInv_run (s : CacheState E A) (events : List (CacheEvent E A))
    (h : CacheInv s) : CacheInv (cacheRun s events) := by
  induction events generalizing s with
  | nil => exact h
  | cons e es ih => exact ih (cacheStep s e) (cacheInv_step s e h)

/-- A successful caller always observes the cached artifact. -/
theorem callerResult_ok (s : CacheState E A) (h : CacheInv s) (c : ℕ) (a : A)
    (hr : callerResult s c = some (.ok a)) : s.cachedGzip = some a := by
  obtain ⟨hload, hlen, hnone, hsome, hbuild, hcache, hcallers⟩ := h
  unfold callerResult at hr
  cases hc : s.callers[c]? with
  | none => rw [hc] at hr; simp at hr
  | some o =>
    rw [hc] at hr
    have hmem : o ∈ s.callers := List.getElem?_mem hc
    cases o with
    | resolved b =>
      simp only [Option.some.injEq, Except.ok.injEq] at hr
      rcases hcallers _ hmem with h1 | ⟨b', h2, h3⟩
      · exact absurd h1 (by simp)
      · cases h2
        rw [← hr]
        exact h3
    | joined i =>
      have hi0 : i = 0 := by
        rcases hcallers _ hmem with h1 | ⟨b', h2, _⟩
        · injection h1
        · exact absurd h2 (by simp)
      subst hi0
      dsimp only at hr
      cases hat : s.attempts[0]? with
      | none => rw [hat] at hr; simp at hr
      | some v =>
        rw [hat] at hr
        simp only [Option.getD_some] at hr
        exact (hcache a).mpr (by rw [hat, hr])

/-- C1: single-flight invariant — over every trace of concurrent calls
and build completions, at most one elevation-data load starts and at most
one dataset build completes, and every caller that resolves successfully
resolves to the one cached artifact (so any two successful callers get
identical artifacts). -/
theorem single_flight_invariant :
    ∀ (E A : Type) (events : List (CacheEvent E A)),
      (cacheRun (initialCacheState E A) events).loadsStarted ≤ 1 ∧
      (cacheRun (initialCacheState E A) events).buildsCompleted ≤ 1 ∧
      (∀ c a, callerResult (cacheRun (initialCacheState E A) events) c =
          some (.ok a) →
        (cacheRun (initialCacheState E A) events).cachedGzip = some a) ∧
      (∀ c c' a a',
        callerResult (cacheRun (initialCacheState E A) events) c = some (.ok a) →
        callerResult (cacheRun (initialCacheState E A) events) c' = some (.ok a') →
        a = a') := by
  intro E A events
  have hinv := cacheInv_run (initialCacheState E A) events cacheInv_initial
  have hload := hinv.1
  have hlen := hinv.2.1
  have hbuild := hinv.2.2.2.2.1
  refine ⟨by omega, ?_, ?_, ?_⟩
  · rw [hbuild]
    cases h : (cacheRun (initialCacheState E A) events).attempts[0]? with
    | none => simp
    | some v =>
      cases v with
      | none => simp
      | some x => cases x <;> simp
  · intro c a hr
    exact callerResult_ok _ hinv c a hr
  · intro c c' a a' hr hr'
    have h1 := callerResult_ok _ hinv c a hr
    have h2 := callerResult_ok _ hinv c' a' hr'
    rw [h1] at h2
    injection h2

/-- C1 witness: a trace with two overlapping callers and one successful
build — one load, one build, both callers resolve to the same artifact. -/
theorem single_flight_invariant_witness :
    (cacheRun (initialCacheState ℕ ℕ)
        [.call, .call, .settle 0 (.ok 7), .call]).cachedGzip = some 7 ∧
      (7 : ℕ) = 7 :=
  ⟨(single_flight_invariant ℕ ℕ [.call, .call, .settle 0 (.ok 7), .call]).2.2.1
      0 7 rfl,
   (single_flight_invariant ℕ ℕ [.call, .call, .settle 0 (.ok 7), .call]).2.2.2
      0 2 7 7 rfl rfl⟩

/-- C2: the code does not recover from a failed build attempt.  After
`[call, settle 0 (error 3), call]` — a first caller, its build attempt
failing, then a fresh caller — the rejected promise is still installed
(`generationPromise = some 0`, the cache is not back to Empty), no new
elevation load or build attempt starts (`loadsStarted` stays 1), and the
second caller observes the original cached failure instead of triggering
a fresh build. -/
theorem failure_cached_not_empty :
    (cacheRun (initialCacheState ℕ ℕ)
        [.call, .settle 0 (.error 3), .call]).loadsStarted = 1 ∧
    (cacheRun (initialCacheState ℕ ℕ)
        [.call, .settle 0 (.error 3), .call]).generationPromise = some 0 ∧
    (cacheRun (initialCacheState ℕ ℕ)
        [.call, .settle 0 (.error 3), .call]).cachedGzip = none ∧
    callerResult (cacheRun (initialCacheState ℕ ℕ)
        [.call, .settle 0 (.error 3), .call]) 1 = some (.error 3) :=
  ⟨rfl, rfl, rfl, rfl⟩

end Viewfinder
